import Mathlib

/-!
A shallow embedding of terrier's `transaction::TransactionManager`
(`src/include/transaction/transaction_manager.h` together with its inline
implementation file).  Machine integers (`timestamp_t`, `txn_id`) are modelled
as `Nat`; the one place the source relies on two's-complement wrap-around
(`start_time + INT64_MIN` in `BeginTransaction`) is modelled with an explicit
`% 2 ^ 64`.  The timestamp counter `time_` is modelled as an unbounded `Nat`:
the source documents timestamp wrap-around as unhandled and unreachable.
Pointers are modelled as `Nat` handles; `nullptr` becomes `Option.none`.
Concurrency is flattened: every latched critical section of the source becomes
one step of a sequential function, which is the source's own serialisation
argument for those sections.
-/

namespace Terrier

/-- Delta record type codes, following the C++ `enum class DeltaRecordType :
uint8_t`: `UPDATE = 0`, `INSERT = 1`, `DELETE = 2`.  A `uint8_t` underlying
value outside the enumerators drives the `default` branch of `Rollback`. -/
def DeltaUPDATE : Nat := 0

/-- `DeltaRecordType::INSERT`. -/
def DeltaINSERT : Nat := 1

/-- `DeltaRecordType::DELETE`. -/
def DeltaDELETE : Nat := 2

/-- The bit pattern of `INT64_MIN` reinterpreted as `uint64_t`, which is what
`start_time + INT64_MIN` adds to the (unsigned) start timestamp. -/
def INT64_MIN_BITS : Nat := 2 ^ 63

/-- An undo record (`storage::UndoRecord`): owning table (null = not installed
in any version chain), tuple slot, delta record type code, the atomically
readable timestamp field, the next-pointer of the version chain (a heap
handle), and the delta projection, listed as (column id, value-or-null) pairs
in projection-list order.  A varlen value is identified with its payload
pointer (`VarlenEntry::Content()`). -/
structure UndoRecord where
  table : Option Nat
  slot : Nat
  ty : Nat
  timestamp : Nat
  next : Option Nat
  delta : List (Nat × Option Nat)
  deriving Repr, DecidableEq

/-- The body of a `storage::CommitRecord` as initialised by
`CommitRecord::Size()/Initialize` in `LogCommit` (the callback pointers are
opaque to the model and omitted). -/
structure CommitRecordData where
  txn_start : Nat
  txn_commit : Nat
  is_read_only : Bool
  deriving Repr, DecidableEq

/-- The body of a `storage::RedoRecord`: tuple slot, the data table it
addresses, and the delta projection as (column id, value-or-null) pairs. -/
structure RedoRecordData where
  slot : Nat
  tableId : Nat
  delta : List (Nat × Option Nat)
  deriving Repr, DecidableEq

/-- A `storage::LogRecord` in a redo buffer, tagged by
`LogRecordType ∈ {REDO, COMMIT}`. -/
inductive LogRecord where
  | redo (r : RedoRecordData)
  | commitRec (c : CommitRecordData)
  deriving Repr, DecidableEq

/-- `LogRecord::RecordType() == LogRecordType::REDO`. -/
def LogRecord.isRedo : LogRecord → Bool
  | .redo _ => true
  | .commitRec _ => false

/-- A transaction's redo buffer: the appended log records (oldest first, so
`LastRecord()` is `records.getLast?`) and the argument of the `Finalize` call
performed on it, if any (`some true` = flushed/published, `some false` =
discarded). -/
structure RedoBuffer where
  records : List LogRecord
  finalized : Option Bool
  deriving Repr, DecidableEq

/-- `transaction::TransactionContext`.  `undo_buffer` lists the transaction's
undo records in the iteration order of the C++ `UndoBuffer`.
`thread_context` is the optional owning `TransactionThreadContext`, identified
by its worker id. -/
structure TransactionContext where
  start_time : Nat
  txn_id : Nat
  undo_buffer : List UndoRecord
  redo_buffer : RedoBuffer
  loose_ptrs : List Nat
  log_processed : Bool
  thread_context : Option Nat
  deriving Repr, DecidableEq

/-- The state of a `TransactionManager` (plus the per-thread-context running
sets, which the C++ stores inside each `TransactionThreadContext` object):
* `time` — the atomic counter `time_`;
* `curr_running_txns` — the global running set (an `unordered_set`, modelled
  as a duplicate-free list);
* `workerSets w` — the running set owned by thread context `w`;
* `registeredWorkers` — `curr_running_workers_`, the thread contexts
  registered via `RegisterWorker`;
* `completed_txns` — the `TransactionQueue` (a `std::forward_list`-style
  sequence with `push_front` = cons, iterated front first), holding completed
  transactions identified by their globally unique start time;
* `gc_enabled`, `log_enabled` — `gc_enabled_` and `log_manager_ != nullptr`. -/
structure TMState where
  time : Nat
  curr_running_txns : List Nat
  workerSets : Nat → List Nat
  registeredWorkers : List Nat
  gc_enabled : Bool
  completed_txns : List Nat
  log_enabled : Bool

/-- `std::unordered_set::emplace`: insert if not already present. -/
def setInsert (s : List Nat) (x : Nat) : List Nat :=
  if x ∈ s then s else x :: s

/-- `std::unordered_set::erase(key)`: remove the element if present. -/
def setErase (s : List Nat) (x : Nat) : List Nat := s.erase x

/-- Update the running set of one thread context, leaving all others alone. -/
def updateWorkerSet (f : Nat → List Nat) (w : Nat) (s : List Nat) :
    Nat → List Nat :=
  fun w' => if w' = w then s else f w'

/-- `TransactionManager::BeginTransaction`: draw `start_time = time_++`,
allocate the context with `txn_id = start_time + INT64_MIN` (uint64
wrap-around), and emplace the start time into the global running set when no
thread context was supplied, otherwise into the thread context's running
set. -/
def BeginTransaction (σ : TMState) (thread_context : Option Nat) :
    TransactionContext × TMState :=
  let start_time := σ.time
  let result : TransactionContext :=
    { start_time := start_time
      txn_id := (start_time + INT64_MIN_BITS) % 2 ^ 64
      undo_buffer := []
      redo_buffer := { records := [], finalized := none }
      loose_ptrs := []
      log_processed := false
      thread_context := thread_context }
  let σ := { σ with time := σ.time + 1 }
  let σ :=
    match thread_context with
    | none =>
        { σ with curr_running_txns := setInsert σ.curr_running_txns start_time }
    | some w =>
        { σ with workerSets :=
            updateWorkerSet σ.workerSets w (setInsert (σ.workerSets w) start_time) }
  (result, σ)

/-- `TransactionManager::LogCommit`: store `commit_time` into `txn_id`; when
logging is enabled append a commit record carrying
`(start_time, commit_time, is_read_only)` with
`is_read_only = undo_buffer_.Empty()`; when logging is disabled set
`log_processed` and invoke the callback synchronously; in either case finalize
the redo buffer in publish mode (`Finalize(true)`). -/
def LogCommit (txn : TransactionContext) (commit_time : Nat)
    (log_enabled : Bool) : TransactionContext :=
  let txn := { txn with txn_id := commit_time }
  let txn :=
    if log_enabled then
      { txn with redo_buffer :=
          { txn.redo_buffer with records := txn.redo_buffer.records ++
              [LogRecord.commitRec
                { txn_start := txn.start_time
                  txn_commit := commit_time
                  is_read_only := txn.undo_buffer.isEmpty }] } }
    else
      { txn with log_processed := true }
  { txn with redo_buffer := { txn.redo_buffer with finalized := some true } }

/-- `TransactionManager::ReadOnlyCommitCriticalSection`: draw
`commit_time = time_++` with no latch and run `LogCommit`. -/
def ReadOnlyCommitCriticalSection (σ : TMState) (txn : TransactionContext) :
    Nat × TransactionContext × TMState :=
  let commit_time := σ.time
  let σ := { σ with time := σ.time + 1 }
  (commit_time, LogCommit txn commit_time σ.log_enabled, σ)

/-- `TransactionManager::UpdatingCommitCriticalSection`: under the exclusive
commit latch draw `commit_time = time_++`, run `LogCommit`, then flip the
timestamp field of every record of the undo buffer to `commit_time`. -/
def UpdatingCommitCriticalSection (σ : TMState) (txn : TransactionContext) :
    Nat × TransactionContext × TMState :=
  let commit_time := σ.time
  let σ := { σ with time := σ.time + 1 }
  let txn := LogCommit txn commit_time σ.log_enabled
  let txn := { txn with undo_buffer :=
      txn.undo_buffer.map (fun u => { u with timestamp := commit_time }) }
  (commit_time, txn, σ)

/-- The post-path part of `TransactionManager::Commit`: erase the start time
from the same running set `BeginTransaction` put it in, and, when GC is
enabled, `push_front` the completed transaction onto `completed_txns_`. -/
def commitBookkeeping (σ : TMState) (txn : TransactionContext) : TMState :=
  let start_time := txn.start_time
  let σ :=
    match txn.thread_context with
    | none =>
        { σ with curr_running_txns := setErase σ.curr_running_txns start_time }
    | some w =>
        { σ with workerSets :=
            updateWorkerSet σ.workerSets w (setErase (σ.workerSets w) start_time) }
  if σ.gc_enabled then
    { σ with completed_txns := start_time :: σ.completed_txns }
  else σ

/-- `TransactionManager::Commit`: pick the read-only critical section exactly
when the undo buffer is empty, otherwise the updating one; then remove the
transaction from its running set and hand it to the GC queue. -/
def Commit (σ : TMState) (txn : TransactionContext) :
    Nat × TransactionContext × TMState :=
  let r :=
    if txn.undo_buffer.isEmpty then ReadOnlyCommitCriticalSection σ txn
    else UpdatingCommitCriticalSection σ txn
  (r.1, r.2.1, commitBookkeeping r.2.2 r.2.1)

/-- `std::min_element` over a running set, `none` on the empty set. -/
def listMin? (l : List Nat) : Option Nat :=
  l.foldr (fun x m => match m with | none => some x | some y => some (min x y))
    none

/-- The loop of `OldestTransactionStartTime` over the registered thread
contexts: fold the minimum of each context's running set into the
accumulator, skipping empty sets (`min_element == end`). -/
def foldOldest (ws : Nat → List Nat) (workers : List Nat) (a : Nat) : Nat :=
  workers.foldl
    (fun acc w =>
      match listMin? (ws w) with
      | none => acc
      | some m => min m acc)
    a

/-- `TransactionManager::OldestTransactionStartTime`: start from the counter
value, fold in the minimum of each registered thread context's running set,
then the minimum of the global running set. -/
def OldestTransactionStartTime (σ : TMState) : Nat :=
  let oldest := foldOldest σ.workerSets σ.registeredWorkers σ.time
  match listMin? σ.curr_running_txns with
  | none => oldest
  | some m => min m oldest

/-- `TransactionManager::CompletedTransactionsForGC`: move `completed_txns_`
out, leaving the internal queue empty. -/
def CompletedTransactionsForGC (σ : TMState) : List Nat × TMState :=
  (σ.completed_txns, { σ with completed_txns := [] })

/-! ## Storage model

The pieces of `storage::DataTable` / `TupleAccessStrategy` that
`Rollback` and `GCLastUpdateOnAbort` touch.  Undo records referenced through
version-chain pointers live in a heap `Nat → UndoRecord`; slot contents are a
value array plus a null bitmap, exactly the split `AccessWithNullCheck` /
`SetNull` / `SetNotNull` operate on. -/

/-- `NUM_RESERVED_COLUMNS` (the version-pointer column). -/
def NUM_RESERVED_COLUMNS : Nat := 1

/-- `VERSION_POINTER_COLUMN_ID`. -/
def VERSION_POINTER_COLUMN_ID : Nat := 0

/-- `storage::BlockLayout`: a column count and the varlen predicate. -/
structure BlockLayout where
  numColumns : Nat
  varlenCols : List Nat
  deriving Repr, DecidableEq

/-- `BlockLayout::IsVarlen`. -/
def BlockLayout.IsVarlen (l : BlockLayout) (col : Nat) : Bool :=
  col ∈ l.varlenCols

/-- One `storage::DataTable` with its `TupleAccessStrategy` state:
per-slot version-chain head pointer (a heap handle), per-slot/column values
and null bits, and the slot allocation map. -/
structure DataTable where
  layout : BlockLayout
  versionPtrs : Nat → Option Nat
  values : Nat → Nat → Nat
  isNull : Nat → Nat → Bool
  allocated : Nat → Bool

/-- The collection of data tables, keyed by the table handle stored in
`UndoRecord::Table()`. -/
def Storage : Type := Nat → DataTable

/-- `TupleAccessStrategy::AccessWithNullCheck(slot, col)`: null bit set gives
`nullptr`, otherwise the stored value (for a varlen column, its payload
pointer). -/
def DataTable.AccessWithNullCheck (tb : DataTable) (slot col : Nat) :
    Option Nat :=
  if tb.isNull slot col then none else some (tb.values slot col)

/-- `TupleAccessStrategy::SetNull(slot, col)`. -/
def DataTable.SetNull (tb : DataTable) (slot col : Nat) : DataTable :=
  { tb with isNull := fun s c => if s = slot ∧ c = col then true else tb.isNull s c }

/-- `TupleAccessStrategy::SetNotNull(slot, col)`. -/
def DataTable.SetNotNull (tb : DataTable) (slot col : Nat) : DataTable :=
  { tb with isNull := fun s c => if s = slot ∧ c = col then false else tb.isNull s c }

/-- `TupleAccessStrategy::Deallocate(slot)`. -/
def DataTable.Deallocate (tb : DataTable) (slot : Nat) : DataTable :=
  { tb with allocated := fun s => if s = slot then false else tb.allocated s }

/-- `StorageUtil::CopyAttrFromProjection`: copy attribute `i` of the delta
into the slot, transferring the null bit. -/
def CopyAttrFromProjection (tb : DataTable) (slot : Nat)
    (delta : List (Nat × Option Nat)) (i : Nat) : DataTable :=
  match delta.get? i with
  | none => tb
  | some (col, v) =>
    match v with
    | none => tb.SetNull slot col
    | some x =>
        let tb := tb.SetNotNull slot col
        { tb with values := fun s c => if s = slot ∧ c = col then x else tb.values s c }

/-- `TransactionManager::DeallocateColumnUpdateIfVarlen`: if column `i` of the
undo delta is a varlen column and the currently visible value at the undo's
slot is non-null, push its payload pointer onto `loose_ptrs`. -/
def DeallocateColumnUpdateIfVarlen (txn : TransactionContext)
    (undo : UndoRecord) (i : Nat) (tb : DataTable) : TransactionContext :=
  match undo.delta.get? i with
  | none => txn
  | some (col, _) =>
    if tb.layout.IsVarlen col then
      match tb.AccessWithNullCheck undo.slot col with
      | some varlen => { txn with loose_ptrs := txn.loose_ptrs ++ [varlen] }
      | none => txn
    else txn

/-- `TransactionManager::DeallocateInsertedTupleIfVarlen`: for every
non-reserved column of the layout that is varlen and non-null at the undo's
slot, push its payload pointer onto `loose_ptrs`. -/
def DeallocateInsertedTupleIfVarlen (txn : TransactionContext)
    (undo : UndoRecord) (tb : DataTable) : TransactionContext :=
  ((List.range tb.layout.numColumns).drop NUM_RESERVED_COLUMNS).foldl
    (fun txn col =>
      if tb.layout.IsVarlen col then
        match tb.AccessWithNullCheck undo.slot col with
        | some varlen => { txn with loose_ptrs := txn.loose_ptrs ++ [varlen] }
        | none => txn
      else txn)
    txn

/-- The `DeltaRecordType::UPDATE` arm of `Rollback`: for each column of the
head version's delta, reclaim a possible varlen then re-apply the
before-image. -/
def rollbackUpdateLoop (txn : TransactionContext) (tb : DataTable)
    (version_ptr : UndoRecord) (slot : Nat) :
    TransactionContext × DataTable :=
  (List.range version_ptr.delta.length).foldl
    (fun acc i =>
      let txn := DeallocateColumnUpdateIfVarlen acc.1 version_ptr i acc.2
      let tb := CopyAttrFromProjection acc.2 slot version_ptr.delta i
      (txn, tb))
    (txn, tb)

/-- The outcomes of `Rollback` other than normal return:
`protocolViolation` is the `throw std::runtime_error` of the `default` arm;
`assertionFailure` models a violated `TERRIER_ASSERT` precondition (the head
version pointer being null or not owned by this transaction), which in the
source is a debug abort and undefined behaviour in release builds. -/
inductive RollbackError where
  | assertionFailure
  | protocolViolation
  deriving Repr, DecidableEq

/-- `TransactionManager::Rollback(txn, record)`: skip records never installed
(`record.table == nullptr`); otherwise read the slot's head version pointer,
dispatch on its delta type (UPDATE / INSERT / DELETE, anything else throwing a
protocol violation), and unlink the head by writing `version_ptr->Next()` into
the slot. -/
def Rollback (heap : Nat → UndoRecord) (storage : Storage)
    (txn : TransactionContext) (record : UndoRecord) :
    Except RollbackError (TransactionContext × Storage) :=
  match record.table with
  | none => .ok (txn, storage)
  | some tid =>
    let tb := storage tid
    let slot := record.slot
    match tb.versionPtrs slot with
    | none => .error .assertionFailure
    | some hp =>
      let version_ptr := heap hp
      if version_ptr.timestamp ≠ txn.txn_id then .error .assertionFailure
      else
        let step : Except RollbackError (TransactionContext × DataTable) :=
          if version_ptr.ty = DeltaUPDATE then
            .ok (rollbackUpdateLoop txn tb version_ptr slot)
          else if version_ptr.ty = DeltaINSERT then
            let txn := DeallocateInsertedTupleIfVarlen txn version_ptr tb
            let tb := tb.SetNull slot VERSION_POINTER_COLUMN_ID
            .ok (txn, tb.Deallocate slot)
          else if version_ptr.ty = DeltaDELETE then
            .ok (txn, tb.SetNotNull slot VERSION_POINTER_COLUMN_ID)
          else .error .protocolViolation
        match step with
        | .error e => .error e
        | .ok (txn, tb) =>
          let tb := { tb with versionPtrs :=
              fun s => if s = slot then version_ptr.next else tb.versionPtrs s }
          .ok (txn, fun t => if t = tid then tb else storage t)

/-- The varlen payload pointers `GCLastUpdateOnAbort` collects from a redo
delta: every non-null value stored at a varlen column, in column order. -/
def varlenPayloads (layout : BlockLayout) (delta : List (Nat × Option Nat)) :
    List Nat :=
  delta.foldl
    (fun acc cv =>
      if layout.IsVarlen cv.1 then
        match cv.2 with
        | some p => acc ++ [p]
        | none => acc
      else acc)
    []

/-- `TransactionManager::GCLastUpdateOnAbort`: if the last redo record exists,
is of `REDO` type, and the last undo record was never installed
(`Table() == nullptr`), push the payload pointer of every non-null varlen
column of the redo delta onto `loose_ptrs`; otherwise change nothing.  The
source dereferences the last undo record without a null check in that branch
(guarded only by a debug assertion that redo and undo records correspond);
the model returns the transaction unchanged when the undo buffer is empty and
theorems about this function hypothesise the asserted correspondence. -/
def GCLastUpdateOnAbort (storage : Storage) (txn : TransactionContext) :
    TransactionContext :=
  match txn.redo_buffer.records.getLast? with
  | none => txn
  | some lastLog =>
    match lastLog with
    | .commitRec _ => txn
    | .redo redo =>
      match txn.undo_buffer.getLast? with
      | none => txn
      | some last_undo =>
        if last_undo.table ≠ none then txn
        else
          { txn with loose_ptrs := txn.loose_ptrs ++
              varlenPayloads (storage redo.tableId).layout redo.delta }

/-- The bookkeeping tail shared by `Commit` and `Abort`: erase the start time
from the transaction's running set and, when GC is enabled, push the
transaction onto `completed_txns_`.  (The two code blocks are identical.) -/
def abortBookkeeping (σ : TMState) (txn : TransactionContext) : TMState :=
  commitBookkeeping σ txn

/-- The `for (auto &it : txn->undo_buffer_) Rollback(txn, it)` loop of
`Abort`, with a thrown protocol violation propagating out. -/
def rollbackAll (heap : Nat → UndoRecord) :
    List UndoRecord → TransactionContext × Storage →
      Except RollbackError (TransactionContext × Storage)
  | [], p => .ok p
  | r :: l, p =>
    match Rollback heap p.2 p.1 r with
    | .error e => .error e
    | .ok q => rollbackAll heap l q

/-- `TransactionManager::Abort`: roll back every undo record (in the undo
buffer's iteration order), reclaim varlens of a possibly uninstalled last
update, discard the redo buffer (`Finalize(false)`), mark the log processed,
and do the running-set / GC-queue bookkeeping.  A protocol violation thrown
from `Rollback` propagates out of `Abort` before any manager bookkeeping
runs; the model surfaces it as `.error`. -/
def Abort (heap : Nat → UndoRecord) (σ : TMState) (storage : Storage)
    (txn : TransactionContext) :
    Except RollbackError (TMState × Storage × TransactionContext) :=
  match rollbackAll heap txn.undo_buffer (txn, storage) with
  | .error e => .error e
  | .ok p =>
    let txn := GCLastUpdateOnAbort p.2 p.1
    let txn := { txn with
      redo_buffer := { txn.redo_buffer with finalized := some false }
      log_processed := true }
    .ok (abortBookkeeping σ txn, p.2, txn)

/-! ## Traces

A sequential interleaving of manager operations, used to reason about every
transaction that was begun by `BeginTransaction` and later committed or
aborted.  Live transactions are identified by their (unique) start time. -/

/-- A system execution state: the manager state, the live (begun, not yet
committed or aborted) transaction contexts, and the storage the manager's
abort path acts on. -/
structure Exec where
  σ : TMState
  live : List TransactionContext
  storage : Storage
  heap : Nat → UndoRecord

/-- The operations a trace may perform.  `beginTxn w` is
`BeginTransaction` with optional thread context `w`; `commitTxn s` / `abortTxn
s` are `Commit` / `Abort` on the live transaction whose start time is `s`
(no-ops when there is none, since the C++ caller could not name such a
transaction); `writeTxn s u r` appends an undo record and a redo record to
that transaction's buffers.  Modelled from the spec: the append itself is
performed by `storage::DataTable` (not part of this source), which appends to
the transaction's append-only undo and redo buffers during an update. -/
inductive Op where
  | beginTxn (w : Option Nat)
  | commitTxn (s : Nat)
  | abortTxn (s : Nat)
  | writeTxn (s : Nat) (u : UndoRecord) (r : RedoRecordData)

/-- One trace step. -/
def step (e : Exec) : Op → Exec
  | .beginTxn w =>
    let r := BeginTransaction e.σ w
    { e with σ := r.2, live := r.1 :: e.live }
  | .commitTxn s =>
    match e.live.find? (fun t => t.start_time = s) with
    | none => e
    | some t =>
      { e with σ := (Commit e.σ t).2.2,
               live := e.live.filter (fun t' => t'.start_time ≠ s) }
  | .abortTxn s =>
    match e.live.find? (fun t => t.start_time = s) with
    | none => e
    | some t =>
      match Abort e.heap e.σ e.storage t with
      | .error _ => e
      | .ok r =>
        { e with σ := r.1, storage := r.2.1,
                 live := e.live.filter (fun t' => t'.start_time ≠ s) }
  | .writeTxn s u r =>
    { e with live := e.live.map (fun t =>
        if t.start_time = s then
          { t with
            undo_buffer := t.undo_buffer ++ [u]
            redo_buffer := { t.redo_buffer with
              records := t.redo_buffer.records ++ [.redo r] } }
        else t) }

/-- Run a trace. -/
def run (ops : List Op) (e : Exec) : Exec := ops.foldl step e

/-- The initial state of a freshly constructed manager: counter at zero, all
running sets empty, no completed transactions, no live transactions. -/
def initExec (workers : List Nat) (gcE logE : Bool) (storage : Storage)
    (heap : Nat → UndoRecord) : Exec :=
  { σ := { time := 0
           curr_running_txns := []
           workerSets := fun _ => []
           registeredWorkers := workers
           gc_enabled := gcE
           completed_txns := []
           log_enabled := logE }
    live := []
    storage := storage
    heap := heap }

/-- The running-set invariant tying a manager state to the live transactions:
all live start times are below the counter and pairwise distinct, the running
sets are duplicate-free, and membership of a start time in the global
(resp. a worker's) running set is exactly the existence of a live transaction
with that start time and no (resp. that) thread context. -/
structure Inv (σ : TMState) (live : List TransactionContext) : Prop where
  bound : ∀ t ∈ live, t.start_time < σ.time
  nodupStarts : (live.map TransactionContext.start_time).Nodup
  nodupGlobal : σ.curr_running_txns.Nodup
  nodupWorkers : ∀ w, (σ.workerSets w).Nodup
  memGlobal : ∀ s, s ∈ σ.curr_running_txns ↔
    ∃ t ∈ live, t.start_time = s ∧ t.thread_context = none
  memWorker : ∀ w s, s ∈ σ.workerSets w ↔
    ∃ t ∈ live, t.start_time = s ∧ t.thread_context = some w

/-! ## Helper lemmas: running sets and minima -/

lemma mem_setInsert {s : List Nat} {x y : Nat} :
    y ∈ setInsert s x ↔ y = x ∨ y ∈ s := by
  unfold setInsert
  split
  · rename_i h
    constructor
    · exact Or.inr
    · rintro (rfl | hy)
      · exact h
      · exact hy
  · simp [List.mem_cons]

lemma setInsert_nodup {s : List Nat} {x : Nat} (h : s.Nodup) :
    (setInsert s x).Nodup := by
  unfold setInsert
  split
  · exact h
  · exact List.nodup_cons.mpr ⟨by assumption, h⟩

lemma setErase_nodup {s : List Nat} {x : Nat} (h : s.Nodup) :
    (setErase s x).Nodup := h.erase x

lemma mem_setErase {s : List Nat} {x y : Nat} (h : s.Nodup) :
    y ∈ setErase s x ↔ y ≠ x ∧ y ∈ s := h.mem_erase_iff

lemma listMin?_cons (x : Nat) (l : List Nat) :
    listMin? (x :: l) =
      match listMin? l with
      | none => some x
      | some y => some (min x y) := rfl

lemma listMin?_eq_none {l : List Nat} (h : listMin? l = none) : l = [] := by
  cases l with
  | nil => rfl
  | cons x l =>
    rw [listMin?_cons] at h
    cases hl : listMin? l <;> rw [hl] at h <;> cases h

lemma listMin?_mem {l : List Nat} {m : Nat} (h : listMin? l = some m) :
    m ∈ l := by
  induction l generalizing m with
  | nil => simp [listMin?] at h
  | cons x l ih =>
    rw [listMin?_cons] at h
    cases hl : listMin? l with
    | none =>
      rw [hl] at h
      cases h
      exact List.mem_cons_self _ _
    | some y =>
      rw [hl] at h
      cases h
      rcases min_choice x y with h' | h'
      · rw [h']
        exact List.mem_cons_self _ _
      · rw [h']
        exact List.mem_cons_of_mem _ (ih hl)

lemma listMin?_le {l : List Nat} {m : Nat} (h : listMin? l = some m) :
    ∀ x ∈ l, m ≤ x := by
  induction l generalizing m with
  | nil => simp [listMin?] at h
  | cons a l ih =>
    intro x hx
    rw [listMin?_cons] at h
    cases hl : listMin? l with
    | none =>
      rw [hl] at h
      cases h
      rcases List.mem_cons.mp hx with rfl | hx'
      · exact le_refl _
      · rw [listMin?_eq_none hl] at hx'
        cases hx'
    | some y =>
      rw [hl] at h
      cases h
      rcases List.mem_cons.mp hx with rfl | hx'
      · exact min_le_left _ _
      · exact le_trans (min_le_right a y) (ih hl x hx')

lemma foldOldest_cons (ws : Nat → List Nat) (w : Nat) (l : List Nat) (a : Nat) :
    foldOldest ws (w :: l) a =
      foldOldest ws l
        (match listMin? (ws w) with
         | none => a
         | some m => min m a) := rfl

lemma foldOldest_le_init (ws : Nat → List Nat) (workers : List Nat) (a : Nat) :
    foldOldest ws workers a ≤ a := by
  induction workers generalizing a with
  | nil => exact le_refl _
  | cons w l ih =>
    rw [foldOldest_cons]
    cases h : listMin? (ws w) with
    | none => exact ih a
    | some m => exact le_trans (ih _) (min_le_right m a)

lemma foldOldest_le_mem (ws : Nat → List Nat) {workers : List Nat} (a : Nat)
    {w s : Nat} (hw : w ∈ workers) (hs : s ∈ ws w) :
    foldOldest ws workers a ≤ s := by
  induction workers generalizing a with
  | nil => cases hw
  | cons w0 l ih =>
    rcases List.mem_cons.mp hw with h' | hw'
    · subst h'
      rw [foldOldest_cons]
      cases h : listMin? (ws w) with
      | none =>
        rw [listMin?_eq_none h] at hs
        cases hs
      | some m =>
        exact le_trans (foldOldest_le_init _ _ _)
          (le_trans (min_le_left m a) (listMin?_le h s hs))
    · rw [foldOldest_cons]
      exact ih _ hw'

lemma foldOldest_attains (ws : Nat → List Nat) (workers : List Nat) (a : Nat) :
    foldOldest ws workers a = a ∨
      ∃ w ∈ workers, foldOldest ws workers a ∈ ws w := by
  induction workers generalizing a with
  | nil => exact Or.inl rfl
  | cons w l ih =>
    rw [foldOldest_cons]
    cases h : listMin? (ws w) with
    | none =>
      rcases ih a with h1 | ⟨w', hw', hm⟩
      · exact Or.inl h1
      · exact Or.inr ⟨w', List.mem_cons_of_mem _ hw', hm⟩
    | some m =>
      rcases ih (min m a) with h1 | ⟨w', hw', hm⟩
      · rcases min_choice m a with h2 | h2
        · refine Or.inr ⟨w, List.mem_cons_self _ _, ?_⟩
          rw [h1, h2]
          exact listMin?_mem h
        · exact Or.inl (by rw [h1, h2])
      · exact Or.inr ⟨w', List.mem_cons_of_mem _ hw', hm⟩

lemma foldOldest_of_empty (ws : Nat → List Nat) {workers : List Nat} (a : Nat)
    (h : ∀ w ∈ workers, ws w = []) : foldOldest ws workers a = a := by
  induction workers with
  | nil => rfl
  | cons w l ih =>
    rw [foldOldest_cons]
    have hw : listMin? (ws w) = none := by
      rw [h w (List.mem_cons_self _ _)]
      rfl
    rw [hw]
    exact ih fun w' hw' => h w' (List.mem_cons_of_mem _ hw')

/-! ## Helper lemmas: commit pipeline projections -/

lemma LogCommit_start_time (t : TransactionContext) (c : Nat) (l : Bool) :
    (LogCommit t c l).start_time = t.start_time := by
  unfold LogCommit
  split <;> rfl

lemma LogCommit_thread_context (t : TransactionContext) (c : Nat) (l : Bool) :
    (LogCommit t c l).thread_context = t.thread_context := by
  unfold LogCommit
  split <;> rfl

lemma LogCommit_undo_buffer (t : TransactionContext) (c : Nat) (l : Bool) :
    (LogCommit t c l).undo_buffer = t.undo_buffer := by
  unfold LogCommit
  split <;> rfl

lemma LogCommit_txn_id (t : TransactionContext) (c : Nat) (l : Bool) :
    (LogCommit t c l).txn_id = c := by
  unfold LogCommit
  split <;> rfl

lemma LogCommit_finalized (t : TransactionContext) (c : Nat) (l : Bool) :
    (LogCommit t c l).redo_buffer.finalized = some true := by
  unfold LogCommit
  split <;> rfl

lemma LogCommit_records_true (t : TransactionContext) (c : Nat) :
    (LogCommit t c true).redo_buffer.records =
      t.redo_buffer.records ++
        [LogRecord.commitRec
          { txn_start := t.start_time, txn_commit := c,
            is_read_only := t.undo_buffer.isEmpty }] := rfl

/-- The transaction context produced by the critical section `Commit` chose:
`LogCommit` output, with the undo timestamps flipped on the updating path. -/
lemma Commit_eq (σ : TMState) (t : TransactionContext) :
    Commit σ t =
      (σ.time,
       (if t.undo_buffer.isEmpty then ReadOnlyCommitCriticalSection σ t
        else UpdatingCommitCriticalSection σ t).2.1,
       commitBookkeeping { σ with time := σ.time + 1 }
         (if t.undo_buffer.isEmpty then ReadOnlyCommitCriticalSection σ t
          else UpdatingCommitCriticalSection σ t).2.1) := by
  unfold Commit ReadOnlyCommitCriticalSection UpdatingCommitCriticalSection
  split <;> rfl

lemma Commit_fst (σ : TMState) (t : TransactionContext) :
    (Commit σ t).1 = σ.time := by
  rw [Commit_eq]

lemma Commit_ctx_start_time (σ : TMState) (t : TransactionContext) :
    (Commit σ t).2.1.start_time = t.start_time := by
  rw [Commit_eq]
  dsimp only
  split
  · exact LogCommit_start_time ..
  · unfold UpdatingCommitCriticalSection
    dsimp only
    rw [LogCommit_start_time]

lemma Commit_ctx_thread_context (σ : TMState) (t : TransactionContext) :
    (Commit σ t).2.1.thread_context = t.thread_context := by
  rw [Commit_eq]
  dsimp only
  split
  · exact LogCommit_thread_context ..
  · unfold UpdatingCommitCriticalSection
    dsimp only
    rw [LogCommit_thread_context]

lemma Commit_state (σ : TMState) (t : TransactionContext) :
    (Commit σ t).2.2 =
      commitBookkeeping { σ with time := σ.time + 1 } (Commit σ t).2.1 := by
  rw [Commit_eq]

lemma commitBookkeeping_time (σ : TMState) (t : TransactionContext) :
    (commitBookkeeping σ t).time = σ.time := by
  unfold commitBookkeeping
  cases t.thread_context <;> dsimp only <;> split <;> rfl

lemma commitBookkeeping_gc (σ : TMState) (t : TransactionContext) :
    (commitBookkeeping σ t).gc_enabled = σ.gc_enabled := by
  unfold commitBookkeeping
  cases t.thread_context <;> dsimp only <;> split <;> rfl

lemma commitBookkeeping_log (σ : TMState) (t : TransactionContext) :
    (commitBookkeeping σ t).log_enabled = σ.log_enabled := by
  unfold commitBookkeeping
  cases t.thread_context <;> dsimp only <;> split <;> rfl

lemma commitBookkeeping_registeredWorkers (σ : TMState) (t : TransactionContext) :
    (commitBookkeeping σ t).registeredWorkers = σ.registeredWorkers := by
  unfold commitBookkeeping
  cases t.thread_context <;> dsimp only <;> split <;> rfl

lemma commitBookkeeping_running_none (σ : TMState) (t : TransactionContext)
    (h : t.thread_context = none) :
    (commitBookkeeping σ t).curr_running_txns =
      setErase σ.curr_running_txns t.start_time := by
  unfold commitBookkeeping
  rw [h]
  dsimp only
  split <;> rfl

lemma commitBookkeeping_workers_none (σ : TMState) (t : TransactionContext)
    (h : t.thread_context = none) :
    (commitBookkeeping σ t).workerSets = σ.workerSets := by
  unfold commitBookkeeping
  rw [h]
  dsimp only
  split <;> rfl

lemma commitBookkeeping_running_some (σ : TMState) (t : TransactionContext)
    (w : Nat) (h : t.thread_context = some w) :
    (commitBookkeeping σ t).curr_running_txns = σ.curr_running_txns := by
  unfold commitBookkeeping
  rw [h]
  dsimp only
  split <;> rfl

lemma commitBookkeeping_workers_some (σ : TMState) (t : TransactionContext)
    (w : Nat) (h : t.thread_context = some w) :
    (commitBookkeeping σ t).workerSets =
      updateWorkerSet σ.workerSets w (setErase (σ.workerSets w) t.start_time) := by
  unfold commitBookkeeping
  rw [h]
  dsimp only
  split <;> rfl

lemma commitBookkeeping_completed (σ : TMState) (t : TransactionContext)
    (h : σ.gc_enabled = true) :
    (commitBookkeeping σ t).completed_txns =
      t.start_time :: σ.completed_txns := by
  unfold commitBookkeeping
  cases hc : t.thread_context <;> dsimp only <;> split <;> rfl

lemma commitBookkeeping_completed_off (σ : TMState) (t : TransactionContext)
    (h : σ.gc_enabled = false) :
    (commitBookkeeping σ t).completed_txns = σ.completed_txns := by
  unfold commitBookkeeping
  cases hc : t.thread_context <;> dsimp only <;> split <;> first
  | rfl
  | (rename_i hgc; rw [h] at hgc; cases hgc)

/-! ## Helper lemmas: the abort path only pushes loose pointers -/

/-- `b` agrees with `a` on every transaction-context field except possibly
`loose_ptrs`. -/
def LooseOnly (a b : TransactionContext) : Prop :=
  ∃ lp, b = { a with loose_ptrs := lp }

lemma looseOnly_refl (a : TransactionContext) : LooseOnly a a :=
  ⟨a.loose_ptrs, rfl⟩

lemma looseOnly_trans {a b c : TransactionContext} (h1 : LooseOnly a b)
    (h2 : LooseOnly b c) : LooseOnly a c := by
  obtain ⟨lp1, rfl⟩ := h1
  obtain ⟨lp2, rfl⟩ := h2
  exact ⟨lp2, rfl⟩

lemma looseOnly_deallocCol (txn : TransactionContext) (undo : UndoRecord)
    (i : Nat) (tb : DataTable) :
    LooseOnly txn (DeallocateColumnUpdateIfVarlen txn undo i tb) := by
  unfold DeallocateColumnUpdateIfVarlen
  split
  · exact looseOnly_refl _
  · split
    · split
      · exact ⟨_, rfl⟩
      · exact looseOnly_refl _
    · exact looseOnly_refl _

lemma looseOnly_foldl {α : Type} {f : TransactionContext → α → TransactionContext}
    (hf : ∀ t x, LooseOnly t (f t x)) :
    ∀ (l : List α) (t : TransactionContext), LooseOnly t (l.foldl f t)
  | [], t => looseOnly_refl t
  | x :: l, t => looseOnly_trans (hf t x) (looseOnly_foldl hf l (f t x))

lemma looseOnly_deallocInserted (txn : TransactionContext) (undo : UndoRecord)
    (tb : DataTable) :
    LooseOnly txn (DeallocateInsertedTupleIfVarlen txn undo tb) := by
  unfold DeallocateInsertedTupleIfVarlen
  refine looseOnly_foldl (fun t col => ?_) _ txn
  split
  · split
    · exact ⟨_, rfl⟩
    · exact looseOnly_refl _
  · exact looseOnly_refl _

lemma looseOnly_foldl_pair {α β : Type}
    {g : TransactionContext × β → α → TransactionContext × β}
    (hg : ∀ p x, LooseOnly p.1 (g p x).1) :
    ∀ (l : List α) (p : TransactionContext × β), LooseOnly p.1 (l.foldl g p).1
  | [], _ => looseOnly_refl _
  | x :: l, p => looseOnly_trans (hg p x) (looseOnly_foldl_pair hg l (g p x))

lemma looseOnly_rollbackUpdateLoop (txn : TransactionContext) (tb : DataTable)
    (version_ptr : UndoRecord) (slot : Nat) :
    LooseOnly txn (rollbackUpdateLoop txn tb version_ptr slot).1 := by
  unfold rollbackUpdateLoop
  exact looseOnly_foldl_pair (fun p i => looseOnly_deallocCol p.1 version_ptr i p.2) _ (txn, tb)

lemma Rollback_ok_looseOnly {heap : Nat → UndoRecord} {storage : Storage}
    {txn : TransactionContext} {record : UndoRecord}
    {p : TransactionContext × Storage}
    (h : Rollback heap storage txn record = .ok p) : LooseOnly txn p.1 := by
  unfold Rollback at h
  cases hT : record.table with
  | none =>
    rw [hT] at h
    cases h
    exact looseOnly_refl _
  | some tid =>
    rw [hT] at h
    dsimp only at h
    cases hV : (storage tid).versionPtrs record.slot with
    | none =>
      rw [hV] at h
      cases h
    | some hp =>
      rw [hV] at h
      dsimp only at h
      by_cases hts : (heap hp).timestamp ≠ txn.txn_id
      · rw [if_pos hts] at h
        cases h
      · rw [if_neg hts] at h
        by_cases h0 : (heap hp).ty = DeltaUPDATE
        · rw [if_pos h0] at h
          dsimp only at h
          cases h
          exact looseOnly_rollbackUpdateLoop ..
        · rw [if_neg h0] at h
          by_cases h1 : (heap hp).ty = DeltaINSERT
          · rw [if_pos h1] at h
            dsimp only at h
            cases h
            exact looseOnly_deallocInserted ..
          · rw [if_neg h1] at h
            by_cases h2 : (heap hp).ty = DeltaDELETE
            · rw [if_pos h2] at h
              dsimp only at h
              cases h
              exact looseOnly_refl _
            · rw [if_neg h2] at h
              cases h

lemma GCLastUpdateOnAbort_looseOnly (storage : Storage)
    (txn : TransactionContext) :
    LooseOnly txn (GCLastUpdateOnAbort storage txn) := by
  unfold GCLastUpdateOnAbort
  split
  · exact looseOnly_refl _
  · split
    · exact looseOnly_refl _
    · split
      · exact looseOnly_refl _
      · split
        · exact looseOnly_refl _
        · exact ⟨_, rfl⟩

lemma rollbackAll_ok_looseOnly {heap : Nat → UndoRecord} :
    ∀ {l : List UndoRecord} {p q : TransactionContext × Storage},
      rollbackAll heap l p = .ok q → LooseOnly p.1 q.1 := by
  intro l
  induction l with
  | nil =>
    intro p q h
    cases h
    exact looseOnly_refl _
  | cons r l ih =>
    intro p q h
    unfold rollbackAll at h
    split at h
    · cases h
    · rename_i p' hp'
      exact looseOnly_trans (Rollback_ok_looseOnly hp') (ih h)

/-- Destructing a successful `Abort`: the final context agrees with the input
on everything except `loose_ptrs`, the discard finalize, and the
`log_processed` flag, and the returned manager state is the shared
commit/abort bookkeeping applied to it. -/
lemma Abort_ok_destruct {heap : Nat → UndoRecord} {σ : TMState}
    {storage : Storage} {txn : TransactionContext}
    {r : TMState × Storage × TransactionContext}
    (h : Abort heap σ storage txn = .ok r) :
    r.2.2.start_time = txn.start_time ∧
    r.2.2.thread_context = txn.thread_context ∧
    r.2.2.redo_buffer.finalized = some false ∧
    r.2.2.log_processed = true ∧
    r.1 = commitBookkeeping σ r.2.2 := by
  unfold Abort at h
  split at h
  · cases h
  · rename_i p hp
    cases h
    have h1 : LooseOnly txn p.1 := rollbackAll_ok_looseOnly hp
    have h2 : LooseOnly p.1 (GCLastUpdateOnAbort p.2 p.1) :=
      GCLastUpdateOnAbort_looseOnly p.2 p.1
    obtain ⟨lp2, hb⟩ := looseOnly_trans h1 h2
    rw [hb]
    exact ⟨rfl, rfl, rfl, rfl, rfl⟩

/-! ## Helper lemmas: `BeginTransaction` projections -/

lemma BeginTransaction_ctx (σ : TMState) (tc : Option Nat) :
    (BeginTransaction σ tc).1 =
      { start_time := σ.time
        txn_id := (σ.time + INT64_MIN_BITS) % 2 ^ 64
        undo_buffer := []
        redo_buffer := { records := [], finalized := none }
        loose_ptrs := []
        log_processed := false
        thread_context := tc } := by
  unfold BeginTransaction
  cases tc <;> rfl

lemma BeginTransaction_time (σ : TMState) (tc : Option Nat) :
    (BeginTransaction σ tc).2.time = σ.time + 1 := by
  unfold BeginTransaction
  cases tc <;> rfl

lemma BeginTransaction_running_none (σ : TMState) :
    (BeginTransaction σ none).2.curr_running_txns =
      setInsert σ.curr_running_txns σ.time := rfl

lemma BeginTransaction_workers_none (σ : TMState) :
    (BeginTransaction σ none).2.workerSets = σ.workerSets := rfl

lemma BeginTransaction_running_some (σ : TMState) (w : Nat) :
    (BeginTransaction σ (some w)).2.curr_running_txns =
      σ.curr_running_txns := rfl

lemma BeginTransaction_workers_some (σ : TMState) (w : Nat) :
    (BeginTransaction σ (some w)).2.workerSets =
      updateWorkerSet σ.workerSets w (setInsert (σ.workerSets w) σ.time) := rfl

/-! ## Sample states used by the witness theorems -/

/-- A small block layout: three columns, column 2 varlen. -/
def sampleLayout : BlockLayout := { numColumns := 3, varlenCols := [2] }

/-- An empty data table over `sampleLayout`. -/
def sampleTable : DataTable :=
  { layout := sampleLayout
    versionPtrs := fun _ => none
    values := fun _ _ => 0
    isNull := fun _ _ => true
    allocated := fun _ => false }

/-- Storage where every table handle is `sampleTable`. -/
def sampleStorage : Storage := fun _ => sampleTable

/-- An uninstalled undo record with an empty delta. -/
def sampleUndo : UndoRecord :=
  { table := none, slot := 0, ty := 0, timestamp := 0, next := none, delta := [] }

/-- A heap where every handle is `sampleUndo`. -/
def sampleHeap : Nat → UndoRecord := fun _ => sampleUndo

/-- A freshly constructed manager with GC and logging enabled. -/
def sampleState : TMState :=
  { time := 0
    curr_running_txns := []
    workerSets := fun _ => []
    registeredWorkers := []
    gc_enabled := true
    completed_txns := []
    log_enabled := true }

/-- The context returned by the first `BeginTransaction` on `sampleState`. -/
def sampleTxn : TransactionContext := (BeginTransaction sampleState none).1

/-- `sampleTxn` after one (uninstalled) update appended an undo record. -/
def sampleUndoTxn : TransactionContext :=
  { sampleTxn with undo_buffer := [sampleUndo] }

/-! ## C2 -/

/-- C2: `OldestTransactionStartTime` returns the minimum of the
timestamp-counter value read at entry and all start times present in every
registered thread context's running set and in the global running set: it is
a lower bound on the counter value and on every member of those sets, it is
attained by the counter value or by a member of one of the sets, and when no
transaction is running it equals the counter value. -/
theorem oldestTransactionStartTime_minimum (σ : TMState) :
    OldestTransactionStartTime σ ≤ σ.time ∧
    (∀ w ∈ σ.registeredWorkers, ∀ s ∈ σ.workerSets w,
      OldestTransactionStartTime σ ≤ s) ∧
    (∀ s ∈ σ.curr_running_txns, OldestTransactionStartTime σ ≤ s) ∧
    (OldestTransactionStartTime σ = σ.time ∨
      (∃ w ∈ σ.registeredWorkers, OldestTransactionStartTime σ ∈ σ.workerSets w) ∨
      OldestTransactionStartTime σ ∈ σ.curr_running_txns) ∧
    ((∀ w ∈ σ.registeredWorkers, σ.workerSets w = []) →
      σ.curr_running_txns = [] → OldestTransactionStartTime σ = σ.time) := by
  unfold OldestTransactionStartTime
  dsimp only
  cases hg : listMin? σ.curr_running_txns with
  | none =>
    dsimp only
    have hempty := listMin?_eq_none hg
    refine ⟨foldOldest_le_init .., ?_, ?_, ?_, ?_⟩
    · intro w hw s hs
      exact foldOldest_le_mem _ _ hw hs
    · intro s hs
      rw [hempty] at hs
      cases hs
    · rcases foldOldest_attains σ.workerSets σ.registeredWorkers σ.time with h | h
      · exact Or.inl h
      · exact Or.inr (Or.inl h)
    · intro hws _
      exact foldOldest_of_empty _ _ hws
  | some m =>
    dsimp only
    have hm := listMin?_mem hg
    refine ⟨?_, ?_, ?_, ?_, ?_⟩
    · exact le_trans (min_le_right _ _) (foldOldest_le_init ..)
    · intro w hw s hs
      exact le_trans (min_le_right _ _) (foldOldest_le_mem _ _ hw hs)
    · intro s hs
      exact le_trans (min_le_left _ _) (listMin?_le hg s hs)
    · rcases min_choice m (foldOldest σ.workerSets σ.registeredWorkers σ.time)
        with h | h
      · exact Or.inr (Or.inr (by rw [h]; exact hm))
      · rcases foldOldest_attains σ.workerSets σ.registeredWorkers σ.time
          with h' | ⟨w, hw, hmem⟩
        · exact Or.inl (by rw [h, h'])
        · exact Or.inr (Or.inl ⟨w, hw, by rw [h]; exact hmem⟩)
    · intro _ hgl
      rw [hgl] at hg
      cases hg

/-- C2 witness: on the fresh manager state (no running transactions), the
call returns the counter value. -/
theorem oldestTransactionStartTime_minimum_witness :
    OldestTransactionStartTime sampleState = sampleState.time :=
  (oldestTransactionStartTime_minimum sampleState).2.2.2.2
    (by intro w hw; cases hw) rfl

/-! ## C3 -/

/-- C3: the context returned by `BeginTransaction` for start timestamp `s`
has `txn_id = (s + 2 ^ 63) % 2 ^ 64` (the source computes
`start_time + INT64_MIN` with unsigned wrap-around), and for any start time
below `2 ^ 63` the resulting id is greater than every timestamp the counter
has issued so far (all of which are at most the start time), hence
distinguishable from them by ordering. -/
theorem beginTransaction_txn_id (σ : TMState) (tc : Option Nat) :
    (BeginTransaction σ tc).1.txn_id =
      ((BeginTransaction σ tc).1.start_time + 2 ^ 63) % 2 ^ 64 ∧
    (BeginTransaction σ tc).1.start_time = σ.time ∧
    ((BeginTransaction σ tc).1.start_time < 2 ^ 63 →
      ∀ ts ≤ (BeginTransaction σ tc).1.start_time,
        ts < (BeginTransaction σ tc).1.txn_id) := by
  rw [BeginTransaction_ctx]
  refine ⟨rfl, rfl, ?_⟩
  intro hlt ts hts
  dsimp only at hlt hts ⊢
  unfold INT64_MIN_BITS
  have hsum : σ.time + 2 ^ 63 < 2 ^ 64 := by
    have h64 : (2 : Nat) ^ 64 = 2 ^ 63 + 2 ^ 63 := by norm_num
    omega
  rw [Nat.mod_eq_of_lt hsum]
  omega

/-- C3 witness: the first transaction on the fresh state has start time 0 and
`txn_id = 2 ^ 63`, larger than the only issued timestamp 0. -/
theorem beginTransaction_txn_id_witness :
    (BeginTransaction sampleState none).1.start_time < 2 ^ 63 ∧
    (0 : Nat) < (BeginTransaction sampleState none).1.txn_id :=
  ⟨by decide, (beginTransaction_txn_id sampleState none).2.2 (by decide) 0
    (by decide)⟩

/-! ## C9 -/

/-- C9: `CompletedTransactionsForGC` moves the whole `completed_txns` queue
into its return value, leaves the internal queue empty and every other field
of the manager untouched, and a second back-to-back call returns the empty
queue without changing anything. -/
theorem completedTransactionsForGC_drains (σ : TMState) :
    (CompletedTransactionsForGC σ).1 = σ.completed_txns ∧
    (CompletedTransactionsForGC σ).2.completed_txns = [] ∧
    (CompletedTransactionsForGC σ).2.time = σ.time ∧
    (CompletedTransactionsForGC σ).2.curr_running_txns = σ.curr_running_txns ∧
    (CompletedTransactionsForGC σ).2.workerSets = σ.workerSets ∧
    (CompletedTransactionsForGC σ).2.registeredWorkers = σ.registeredWorkers ∧
    (CompletedTransactionsForGC σ).2.gc_enabled = σ.gc_enabled ∧
    (CompletedTransactionsForGC σ).2.log_enabled = σ.log_enabled ∧
    (CompletedTransactionsForGC (CompletedTransactionsForGC σ).2).1 = [] ∧
    (CompletedTransactionsForGC (CompletedTransactionsForGC σ).2).2 =
      (CompletedTransactionsForGC σ).2 :=
  ⟨rfl, rfl, rfl, rfl, rfl, rfl, rfl, rfl, rfl, rfl⟩

/-! ## C1 -/

/-- C1: `Commit` takes the updating path exactly when the undo buffer is
non-empty.  On that path the commit timestamp is allocated inside the
exclusive section (`commit_ts = time_` at entry), the commit record is
emitted (when logging is enabled, with `is_read_only = false`), `txn_id` is
rewritten to `commit_ts`, and after `Commit` returns every record of the
transaction's undo buffer carries `commit_ts` in its timestamp field.  The
read-only path is taken exactly when the undo buffer is empty: no undo
timestamps exist to flip and the emitted commit record carries
`is_read_only = true`. -/
theorem commit_two_paths (σ : TMState) (txn : TransactionContext) :
    (txn.undo_buffer ≠ [] →
      (Commit σ txn).1 = σ.time ∧
      (Commit σ txn).2.1.undo_buffer =
        txn.undo_buffer.map (fun u => { u with timestamp := (Commit σ txn).1 }) ∧
      (∀ u ∈ (Commit σ txn).2.1.undo_buffer, u.timestamp = (Commit σ txn).1) ∧
      (Commit σ txn).2.1.txn_id = (Commit σ txn).1 ∧
      (σ.log_enabled = true →
        (Commit σ txn).2.1.redo_buffer.records.getLast? =
          some (.commitRec
            { txn_start := txn.start_time
              txn_commit := (Commit σ txn).1
              is_read_only := false }))) ∧
    (txn.undo_buffer = [] →
      (Commit σ txn).1 = σ.time ∧
      (Commit σ txn).2.1.undo_buffer = [] ∧
      (σ.log_enabled = true →
        (Commit σ txn).2.1.redo_buffer.records.getLast? =
          some (.commitRec
            { txn_start := txn.start_time
              txn_commit := (Commit σ txn).1
              is_read_only := true }))) := by
  constructor
  · intro hne
    have he : txn.undo_buffer.isEmpty = false := List.isEmpty_eq_false.mpr hne
    rw [Commit_eq]
    dsimp only
    rw [he]
    simp only [Bool.false_eq_true, if_false]
    unfold UpdatingCommitCriticalSection
    dsimp only
    refine ⟨trivial, ?_, ?_, ?_, ?_⟩
    · rw [LogCommit_undo_buffer]
    · intro u hu
      rw [LogCommit_undo_buffer] at hu
      obtain ⟨a, _, rfl⟩ := List.mem_map.mp hu
      rfl
    · exact LogCommit_txn_id ..
    · intro hl
      rw [hl, LogCommit_records_true, List.getLast?_concat, he]
  · intro hnil
    have he : txn.undo_buffer.isEmpty = true := List.isEmpty_eq_true.mpr hnil
    rw [Commit_eq]
    dsimp only
    rw [he]
    simp only [if_true]
    unfold ReadOnlyCommitCriticalSection
    dsimp only
    refine ⟨trivial, ?_, ?_⟩
    · rw [LogCommit_undo_buffer, hnil]
    · intro hl
      rw [hl, LogCommit_records_true, List.getLast?_concat, he]

/-- C1 witness: committing a transaction with one undo record flips its
timestamp to the returned commit timestamp and sets `txn_id`; committing a
fresh read-only transaction leaves the undo buffer empty. -/
theorem commit_two_paths_witness :
    sampleUndoTxn.undo_buffer ≠ [] ∧
    (Commit sampleState sampleUndoTxn).2.1.undo_buffer =
      sampleUndoTxn.undo_buffer.map
        (fun u => { u with timestamp := (Commit sampleState sampleUndoTxn).1 }) ∧
    (Commit sampleState sampleUndoTxn).2.1.txn_id =
      (Commit sampleState sampleUndoTxn).1 ∧
    sampleTxn.undo_buffer = [] ∧
    (Commit sampleState sampleTxn).2.1.undo_buffer = [] :=
  ⟨by decide,
   ((commit_two_paths sampleState sampleUndoTxn).1 (by decide)).2.1,
   ((commit_two_paths sampleState sampleUndoTxn).1 (by decide)).2.2.2.1,
   rfl,
   ((commit_two_paths sampleState sampleTxn).2 rfl).2.1⟩

/-! ## C10 -/

/-- Whether an `Except` result is a success. -/
def exceptOk {ε α : Type} : Except ε α → Bool
  | .ok _ => true
  | .error _ => false

/-- C10: on every `Commit` — logging enabled or disabled, read-only or
updating — the transaction's redo buffer is finalized in publish mode
(`Finalize(true)`); the discard finalize (`Finalize(false)`) happens only in
`Abort`, whose successful result always carries a discarded redo buffer and
`log_processed = true`. -/
theorem commit_finalize_publish_abort_discard (σ : TMState)
    (txn : TransactionContext) (heap : Nat → UndoRecord) (storage : Storage) :
    (Commit σ txn).2.1.redo_buffer.finalized = some true ∧
    (∀ r, Abort heap σ storage txn = .ok r →
      r.2.2.redo_buffer.finalized = some false ∧ r.2.2.log_processed = true) := by
  constructor
  · rw [Commit_eq]
    dsimp only
    split
    · exact LogCommit_finalized ..
    · unfold UpdatingCommitCriticalSection
      dsimp only
      exact LogCommit_finalized ..
  · intro r h
    obtain ⟨_, _, h3, h4, _⟩ := Abort_ok_destruct h
    exact ⟨h3, h4⟩

/-- C10 witness: a concrete commit on a logging-disabled manager still
publishes the redo buffer, and a concrete abort discards it. -/
theorem commit_finalize_publish_abort_discard_witness :
    (Commit { sampleState with log_enabled := false } sampleTxn).2.1.redo_buffer.finalized
        = some true ∧
    (∃ r, Abort sampleHeap sampleState sampleStorage sampleTxn = .ok r ∧
      r.2.2.redo_buffer.finalized = some false) := by
  constructor
  · exact (commit_finalize_publish_abort_discard
      { sampleState with log_enabled := false } sampleTxn sampleHeap sampleStorage).1
  · have hok : exceptOk (Abort sampleHeap sampleState sampleStorage sampleTxn)
        = true := by decide
    cases h : Abort sampleHeap sampleState sampleStorage sampleTxn with
    | error e =>
      rw [h] at hok
      cases hok
    | ok r =>
      exact ⟨r, rfl, ((commit_finalize_publish_abort_discard sampleState
        sampleTxn sampleHeap sampleStorage).2 r h).1⟩

/-! ## C7 -/

/-- C7: `Rollback` raises the protocol-violation error exactly when the
record's table is non-null and the delta kind of the slot's head version
record is none of UPDATE, INSERT, DELETE; when the record's table is null it
returns immediately with the transaction (including its loose-pointer list)
and the storage (tuple slots and version chains) unchanged.  The non-null
case is stated under the source's asserted preconditions: the head version
pointer exists and is owned by this transaction. -/
theorem rollback_protocol_violation (heap : Nat → UndoRecord)
    (storage : Storage) (txn : TransactionContext) (record : UndoRecord) :
    (record.table = none →
      Rollback heap storage txn record = .ok (txn, storage)) ∧
    (∀ tid hp, record.table = some tid →
      (storage tid).versionPtrs record.slot = some hp →
      (heap hp).timestamp = txn.txn_id →
      (Rollback heap storage txn record = .error .protocolViolation ↔
        (heap hp).ty ≠ DeltaUPDATE ∧ (heap hp).ty ≠ DeltaINSERT ∧
          (heap hp).ty ≠ DeltaDELETE)) := by
  constructor
  · intro hT
    unfold Rollback
    rw [hT]
  · intro tid hp hT hV hts
    unfold Rollback
    rw [hT]
    dsimp only
    rw [hV]
    dsimp only
    rw [if_neg (not_not_intro hts)]
    by_cases h0 : (heap hp).ty = DeltaUPDATE
    · rw [if_pos h0]
      dsimp only
      constructor
      · intro h
        cases h
      · rintro ⟨a, -, -⟩
        exact absurd h0 a
    · rw [if_neg h0]
      by_cases h1 : (heap hp).ty = DeltaINSERT
      · rw [if_pos h1]
        dsimp only
        constructor
        · intro h
          cases h
        · rintro ⟨-, b, -⟩
          exact absurd h1 b
      · rw [if_neg h1]
        by_cases h2 : (heap hp).ty = DeltaDELETE
        · rw [if_pos h2]
          dsimp only
          constructor
          · intro h
            cases h
          · rintro ⟨-, -, c⟩
            exact absurd h2 c
        · rw [if_neg h2]
          dsimp only
          exact ⟨fun _ => ⟨h0, h1, h2⟩, fun _ => rfl⟩

/-- A data table whose every slot has a head version pointer (handle 0). -/
def badTable : DataTable := { sampleTable with versionPtrs := fun _ => some 0 }

/-- Storage where every table is `badTable`. -/
def badStorage : Storage := fun _ => badTable

/-- A head version record owned by `sampleTxn` whose delta kind code 7 is
outside the `DeltaRecordType` enum. -/
def badHeadRecord : UndoRecord :=
  { table := none, slot := 0, ty := 7, timestamp := sampleTxn.txn_id,
    next := none, delta := [] }

/-- A heap where every handle is `badHeadRecord`. -/
def badHeap : Nat → UndoRecord := fun _ => badHeadRecord

/-- An undo record installed in table 0. -/
def installedRecord : UndoRecord := { sampleUndo with table := some 0 }

/-- C7 witness: a never-installed record is skipped unchanged, and an
installed record whose chain head has delta kind 7 raises the protocol
violation. -/
theorem rollback_protocol_violation_witness :
    sampleUndo.table = none ∧
    Rollback sampleHeap sampleStorage sampleTxn sampleUndo =
      .ok (sampleTxn, sampleStorage) ∧
    Rollback badHeap badStorage sampleTxn installedRecord =
      .error .protocolViolation :=
  ⟨rfl,
   (rollback_protocol_violation sampleHeap sampleStorage sampleTxn
     sampleUndo).1 rfl,
   ((rollback_protocol_violation badHeap badStorage sampleTxn
     installedRecord).2 0 0 rfl rfl rfl).mpr (by decide)⟩

/-! ## C8 -/

lemma varlenPayloads_foldl (layout : BlockLayout) :
    ∀ (delta : List (Nat × Option Nat)) (acc : List Nat),
      delta.foldl
        (fun acc cv =>
          if layout.IsVarlen cv.1 then
            match cv.2 with
            | some p => acc ++ [p]
            | none => acc
          else acc) acc =
      acc ++ delta.filterMap
        (fun cv => if layout.IsVarlen cv.1 then cv.2 else none)
  | [], acc => by simp
  | cv :: l, acc => by
    rw [List.foldl_cons, List.filterMap_cons]
    by_cases hv : layout.IsVarlen cv.1
    · rw [if_pos hv, if_pos hv]
      cases h2 : cv.2 with
      | none => exact varlenPayloads_foldl layout l acc
      | some p =>
        rw [varlenPayloads_foldl layout l (acc ++ [p])]
        simp
    · rw [if_neg hv, if_neg hv]
      exact varlenPayloads_foldl layout l acc

/-- C8: `GCLastUpdateOnAbort` pushes onto `loose_ptrs` the payload pointer of
every non-null varlen column of the last redo record's delta exactly when the
last redo record exists, is of REDO type, and the last undo record's table
pointer is null; in every other case it returns the transaction unchanged.
Stated under the source's asserted correspondence that a transaction with a
last REDO record has a last undo record. -/
theorem gcLastUpdateOnAbort_spec (storage : Storage) (txn : TransactionContext)
    (hcorr : (∃ r, txn.redo_buffer.records.getLast? = some (.redo r)) →
      txn.undo_buffer ≠ []) :
    (∀ r u, txn.redo_buffer.records.getLast? = some (.redo r) →
      txn.undo_buffer.getLast? = some u → u.table = none →
      GCLastUpdateOnAbort storage txn =
        { txn with loose_ptrs := txn.loose_ptrs ++
            varlenPayloads (storage r.tableId).layout r.delta }) ∧
    (¬ (∃ r u, txn.redo_buffer.records.getLast? = some (.redo r) ∧
        txn.undo_buffer.getLast? = some u ∧ u.table = none) →
      GCLastUpdateOnAbort storage txn = txn) ∧
    (∀ (layout : BlockLayout) (delta : List (Nat × Option Nat)),
      varlenPayloads layout delta =
        delta.filterMap (fun cv => if layout.IsVarlen cv.1 then cv.2 else none)) := by
  refine ⟨?_, ?_, ?_⟩
  · intro r u hr hu ht
    unfold GCLastUpdateOnAbort
    rw [hr]
    dsimp only
    rw [hu]
    dsimp only
    rw [if_neg (not_not_intro ht)]
  · intro hno
    unfold GCLastUpdateOnAbort
    cases hr : txn.redo_buffer.records.getLast? with
    | none => rfl
    | some lastLog =>
      cases lastLog with
      | commitRec c => rfl
      | redo r =>
        dsimp only
        cases hu : txn.undo_buffer.getLast? with
        | none =>
          exact absurd (List.getLast?_eq_none_iff.mp hu) (hcorr ⟨r, hr⟩)
        | some u =>
          dsimp only
          by_cases htab : u.table = none
          · exact absurd ⟨r, u, hr, hu, htab⟩ hno
          · rw [if_pos htab]
  · intro layout delta
    unfold varlenPayloads
    rw [varlenPayloads_foldl]
    rfl

/-- The last redo record of the aborted sample transaction: a REDO touching
varlen column 2 (payload 77, then a null) and non-varlen column 1. -/
def sampleRedo : RedoRecordData :=
  { slot := 0, tableId := 0, delta := [(2, some 77), (1, some 5), (2, none)] }

/-- A transaction whose last update appended a redo record but whose undo
record was never installed (`table = none`). -/
def sampleAbortTxn : TransactionContext :=
  { sampleTxn with
    undo_buffer := [sampleUndo]
    redo_buffer := { records := [.redo sampleRedo], finalized := none } }

/-- C8 witness: on the concrete aborted transaction, the varlen payload 77 of
the uninstalled last update is pushed onto `loose_ptrs`. -/
theorem gcLastUpdateOnAbort_spec_witness :
    GCLastUpdateOnAbort sampleStorage sampleAbortTxn =
      { sampleAbortTxn with loose_ptrs :=
          (sampleAbortTxn.loose_ptrs ++
            varlenPayloads (sampleStorage sampleRedo.tableId).layout
              sampleRedo.delta) } ∧
    varlenPayloads sampleLayout sampleRedo.delta = [77] :=
  ⟨(gcLastUpdateOnAbort_spec sampleStorage sampleAbortTxn
      (fun _ => by decide)).1 sampleRedo sampleUndo rfl rfl rfl,
   by decide⟩

/-! ## C6 -/

/-- C6 (amended): when GC is enabled, `completed_txns` is a LIFO —
`Commit` and `Abort` `push_front` the completed transaction, so
`CompletedTransactionsForGC` yields contexts most-recently-completed first,
i.e. in reverse completion order. -/
theorem completed_txns_lifo (σ : TMState) (t1 t2 : TransactionContext)
    (heap : Nat → UndoRecord) (storage : Storage)
    (h : σ.gc_enabled = true) :
    ((Commit σ t1).2.2).completed_txns = t1.start_time :: σ.completed_txns ∧
    ((Commit (Commit σ t1).2.2 t2).2.2).completed_txns =
      t2.start_time :: t1.start_time :: σ.completed_txns ∧
    (∀ r, Abort heap σ storage t1 = .ok r →
      r.1.completed_txns = t1.start_time :: σ.completed_txns) ∧
    (CompletedTransactionsForGC (Commit (Commit σ t1).2.2 t2).2.2).1 =
      t2.start_time :: t1.start_time :: σ.completed_txns := by
  have h1 : ((Commit σ t1).2.2).completed_txns =
      t1.start_time :: σ.completed_txns := by
    rw [Commit_state,
      commitBookkeeping_completed { σ with time := σ.time + 1 }
        ((Commit σ t1).2.1) h,
      Commit_ctx_start_time]
  have hgc1 : ((Commit σ t1).2.2).gc_enabled = true := by
    rw [Commit_state, commitBookkeeping_gc]
    exact h
  have h2 : ((Commit (Commit σ t1).2.2 t2).2.2).completed_txns =
      t2.start_time :: t1.start_time :: σ.completed_txns := by
    rw [Commit_state,
      commitBookkeeping_completed
        { (Commit σ t1).2.2 with time := ((Commit σ t1).2.2).time + 1 }
        ((Commit (Commit σ t1).2.2 t2).2.1) hgc1,
      Commit_ctx_start_time]
    dsimp only
    rw [h1]
  refine ⟨h1, h2, ?_, h2⟩
  intro r hr
  obtain ⟨hs, -, -, -, hbk⟩ := Abort_ok_destruct hr
  rw [hbk, commitBookkeeping_completed _ _ h, hs]

/-- C6 amended-claim witness: a concrete commit pushes the transaction onto
the front of the queue. -/
theorem completed_txns_lifo_witness :
    sampleState.gc_enabled = true ∧
    ((Commit sampleState sampleTxn).2.2).completed_txns =
      sampleTxn.start_time :: sampleState.completed_txns :=
  ⟨rfl, (completed_txns_lifo sampleState sampleTxn sampleTxn sampleHeap
    sampleStorage rfl).1⟩

/-- The manager state after begin/commit of a first transaction (start time
0) on the fresh GC-enabled state. -/
def cexState1 : TMState :=
  (Commit (BeginTransaction sampleState none).2
    (BeginTransaction sampleState none).1).2.2

/-- The second transaction, begun after the first committed; its start time
is 2. -/
def cexTxn2 : TransactionContext := (BeginTransaction cexState1 none).1

/-- The manager state after the second transaction also committed. -/
def cexState2 : TMState :=
  (Commit (BeginTransaction cexState1 none).2 cexTxn2).2.2

/-- C6 counterexample: the transaction with start time 0 completes first and
the one with start time 2 second, yet `CompletedTransactionsForGC` yields
`[2, 0]` — the reverse of the completion order — not the `[0, 2]` the FIFO
claim predicts. -/
theorem completed_txns_fifo_counterexample :
    (BeginTransaction sampleState none).1.start_time = 0 ∧
    cexTxn2.start_time = 2 ∧
    (CompletedTransactionsForGC cexState2).1 = [2, 0] ∧
    (CompletedTransactionsForGC cexState2).1 ≠ [0, 2] := by
  refine ⟨rfl, rfl, ?_, ?_⟩ <;> decide

/-! ## The running-set invariant is preserved by every trace step -/

lemma updateWorkerSet_same (f : Nat → List Nat) (w : Nat) (s : List Nat) :
    updateWorkerSet f w s w = s := by
  simp [updateWorkerSet]

lemma updateWorkerSet_other (f : Nat → List Nat) (w : Nat) (s : List Nat)
    {w' : Nat} (h : w' ≠ w) : updateWorkerSet f w s w' = f w' := by
  simp [updateWorkerSet, h]

/-- Distinct live transactions have distinct start times, so a live
transaction with a different thread context has a different start time. -/
lemma live_ctx_ne_start_ne {σ : TMState} {live : List TransactionContext}
    (inv : Inv σ live) {t y : TransactionContext} (ht : t ∈ live)
    (hy : y ∈ live) (hne : y.thread_context ≠ t.thread_context) :
    y.start_time ≠ t.start_time := fun hEq =>
  hne (by rw [List.inj_on_of_nodup_map inv.nodupStarts hy ht hEq])

/-- The invariant is preserved by the shared commit/abort bookkeeping,
applied to any context `t'` carrying the start time and thread context of a
live transaction `t`, over any intermediate state that kept the running sets
and did not decrease the counter. -/
lemma Inv_remove {σ : TMState} {live : List TransactionContext}
    (inv : Inv σ live) {t t' : TransactionContext} (ht : t ∈ live)
    (hs : t'.start_time = t.start_time)
    (hc : t'.thread_context = t.thread_context)
    {σ₁ : TMState} (hσtime : σ.time ≤ σ₁.time)
    (hσrun : σ₁.curr_running_txns = σ.curr_running_txns)
    (hσws : σ₁.workerSets = σ.workerSets) :
    Inv (commitBookkeeping σ₁ t')
      (live.filter (fun x => x.start_time ≠ t.start_time)) := by
  have hmemF : ∀ x : TransactionContext,
      x ∈ live.filter (fun x => x.start_time ≠ t.start_time) ↔
        x ∈ live ∧ x.start_time ≠ t.start_time := by
    intro x
    simp [List.mem_filter]
  have hb : ∀ x ∈ live.filter (fun x => x.start_time ≠ t.start_time),
      x.start_time < (commitBookkeeping σ₁ t').time := by
    intro x hx
    rw [commitBookkeeping_time]
    exact lt_of_lt_of_le (inv.bound x ((hmemF x).mp hx).1) hσtime
  have hnd : ((live.filter (fun x => x.start_time ≠ t.start_time)).map
      TransactionContext.start_time).Nodup :=
    List.Nodup.sublist
      (List.Sublist.map TransactionContext.start_time
        (List.filter_sublist live)) inv.nodupStarts
  cases hctx : t.thread_context with
  | none =>
    have hc' : t'.thread_context = none := hc.trans hctx
    refine ⟨hb, hnd, ?_, ?_, ?_, ?_⟩
    · rw [commitBookkeeping_running_none _ _ hc', hσrun]
      exact setErase_nodup inv.nodupGlobal
    · intro w
      rw [commitBookkeeping_workers_none _ _ hc', hσws]
      exact inv.nodupWorkers w
    · intro x
      rw [commitBookkeeping_running_none _ _ hc', hσrun, hs,
        mem_setErase inv.nodupGlobal]
      constructor
      · rintro ⟨hxne, hxmem⟩
        obtain ⟨y, hy, hyx, hyc⟩ := (inv.memGlobal x).mp hxmem
        exact ⟨y, (hmemF y).mpr ⟨hy, by rw [hyx]; exact hxne⟩, hyx, hyc⟩
      · rintro ⟨y, hyF, hyx, hyc⟩
        obtain ⟨hy, hyne⟩ := (hmemF y).mp hyF
        exact ⟨by rw [← hyx]; exact hyne, (inv.memGlobal x).mpr ⟨y, hy, hyx, hyc⟩⟩
    · intro w x
      rw [commitBookkeeping_workers_none _ _ hc', hσws]
      constructor
      · intro hxmem
        obtain ⟨y, hy, hyx, hyc⟩ := (inv.memWorker w x).mp hxmem
        have hyne : y.start_time ≠ t.start_time :=
          live_ctx_ne_start_ne inv ht hy (by rw [hyc, hctx]; exact fun h => by cases h)
        exact ⟨y, (hmemF y).mpr ⟨hy, hyne⟩, hyx, hyc⟩
      · rintro ⟨y, hyF, hyx, hyc⟩
        exact (inv.memWorker w x).mpr ⟨y, ((hmemF y).mp hyF).1, hyx, hyc⟩
  | some w0 =>
    have hc' : t'.thread_context = some w0 := hc.trans hctx
    refine ⟨hb, hnd, ?_, ?_, ?_, ?_⟩
    · rw [commitBookkeeping_running_some _ _ _ hc', hσrun]
      exact inv.nodupGlobal
    · intro w
      rw [commitBookkeeping_workers_some _ _ _ hc', hσws]
      by_cases hw : w = w0
      · subst hw
        rw [updateWorkerSet_same]
        exact setErase_nodup (inv.nodupWorkers w)
      · rw [updateWorkerSet_other _ _ _ hw]
        exact inv.nodupWorkers w
    · intro x
      rw [commitBookkeeping_running_some _ _ _ hc', hσrun]
      constructor
      · intro hxmem
        obtain ⟨y, hy, hyx, hyc⟩ := (inv.memGlobal x).mp hxmem
        have hyne : y.start_time ≠ t.start_time :=
          live_ctx_ne_start_ne inv ht hy (by rw [hyc, hctx]; exact fun h => by cases h)
        exact ⟨y, (hmemF y).mpr ⟨hy, hyne⟩, hyx, hyc⟩
      · rintro ⟨y, hyF, hyx, hyc⟩
        exact (inv.memGlobal x).mpr ⟨y, ((hmemF y).mp hyF).1, hyx, hyc⟩
    · intro w x
      rw [commitBookkeeping_workers_some _ _ _ hc', hσws]
      by_cases hw : w = w0
      · subst hw
        rw [updateWorkerSet_same, hs, mem_setErase (inv.nodupWorkers w)]
        constructor
        · rintro ⟨hxne, hxmem⟩
          obtain ⟨y, hy, hyx, hyc⟩ := (inv.memWorker w x).mp hxmem
          exact ⟨y, (hmemF y).mpr ⟨hy, by rw [hyx]; exact hxne⟩, hyx, hyc⟩
        · rintro ⟨y, hyF, hyx, hyc⟩
          obtain ⟨hy, hyne⟩ := (hmemF y).mp hyF
          exact ⟨by rw [← hyx]; exact hyne,
            (inv.memWorker w x).mpr ⟨y, hy, hyx, hyc⟩⟩
      · rw [updateWorkerSet_other _ _ _ hw]
        constructor
        · intro hxmem
          obtain ⟨y, hy, hyx, hyc⟩ := (inv.memWorker w x).mp hxmem
          have hyne : y.start_time ≠ t.start_time :=
            live_ctx_ne_start_ne inv ht hy
              (by rw [hyc, hctx]; intro h; cases h; exact hw rfl)
          exact ⟨y, (hmemF y).mpr ⟨hy, hyne⟩, hyx, hyc⟩
        · rintro ⟨y, hyF, hyx, hyc⟩
          exact (inv.memWorker w x).mpr ⟨y, ((hmemF y).mp hyF).1, hyx, hyc⟩

/-- The invariant is preserved by `BeginTransaction`. -/
lemma Inv_begin {σ : TMState} {live : List TransactionContext}
    (inv : Inv σ live) (w : Option Nat) :
    Inv (BeginTransaction σ w).2 ((BeginTransaction σ w).1 :: live) := by
  have hcs : (BeginTransaction σ w).1.start_time = σ.time := by
    rw [BeginTransaction_ctx]
  have hcc : (BeginTransaction σ w).1.thread_context = w := by
    rw [BeginTransaction_ctx]
  have hb : ∀ x ∈ (BeginTransaction σ w).1 :: live,
      x.start_time < (BeginTransaction σ w).2.time := by
    intro x hx
    rw [BeginTransaction_time]
    rcases List.mem_cons.mp hx with rfl | hx'
    · rw [hcs]
      exact Nat.lt_succ_self _
    · exact Nat.lt_succ_of_lt (inv.bound x hx')
  have hfresh : σ.time ∉ live.map TransactionContext.start_time := by
    intro hmem
    obtain ⟨y, hy, hyx⟩ := List.mem_map.mp hmem
    exact absurd (hyx ▸ inv.bound y hy) (lt_irrefl σ.time)
  have hnd : (((BeginTransaction σ w).1 :: live).map
      TransactionContext.start_time).Nodup := by
    rw [List.map_cons, hcs]
    exact List.nodup_cons.mpr ⟨hfresh, inv.nodupStarts⟩
  cases w with
  | none =>
    refine ⟨hb, hnd, ?_, ?_, ?_, ?_⟩
    · rw [BeginTransaction_running_none]
      exact setInsert_nodup inv.nodupGlobal
    · intro w'
      rw [BeginTransaction_workers_none]
      exact inv.nodupWorkers w'
    · intro x
      rw [BeginTransaction_running_none, mem_setInsert,
        List.exists_mem_cons_iff]
      constructor
      · rintro (rfl | hx)
        · exact Or.inl ⟨hcs, hcc⟩
        · exact Or.inr ((inv.memGlobal x).mp hx)
      · rintro (⟨hx1, -⟩ | hx)
        · exact Or.inl (by rw [← hx1, hcs])
        · exact Or.inr ((inv.memGlobal x).mpr hx)
    · intro w' x
      rw [BeginTransaction_workers_none, List.exists_mem_cons_iff]
      constructor
      · intro hx
        exact Or.inr ((inv.memWorker w' x).mp hx)
      · rintro (⟨-, hx2⟩ | hx)
        · rw [hcc] at hx2
          cases hx2
        · exact (inv.memWorker w' x).mpr hx
  | some w0 =>
    refine ⟨hb, hnd, ?_, ?_, ?_, ?_⟩
    · rw [BeginTransaction_running_some]
      exact inv.nodupGlobal
    · intro w'
      rw [BeginTransaction_workers_some]
      by_cases hw : w' = w0
      · subst hw
        rw [updateWorkerSet_same]
        exact setInsert_nodup (inv.nodupWorkers w')
      · rw [updateWorkerSet_other _ _ _ hw]
        exact inv.nodupWorkers w'
    · intro x
      rw [BeginTransaction_running_some, List.exists_mem_cons_iff]
      constructor
      · intro hx
        exact Or.inr ((inv.memGlobal x).mp hx)
      · rintro (⟨-, hx2⟩ | hx)
        · rw [hcc] at hx2
          cases hx2
        · exact (inv.memGlobal x).mpr hx
    · intro w' x
      rw [BeginTransaction_workers_some, List.exists_mem_cons_iff]
      by_cases hw : w' = w0
      · subst hw
        rw [updateWorkerSet_same, mem_setInsert]
        constructor
        · rintro (rfl | hx)
          · exact Or.inl ⟨hcs, hcc⟩
          · exact Or.inr ((inv.memWorker w' x).mp hx)
        · rintro (⟨hx1, -⟩ | hx)
          · exact Or.inl (by rw [← hx1, hcs])
          · exact Or.inr ((inv.memWorker w' x).mpr hx)
      · rw [updateWorkerSet_other _ _ _ hw]
        constructor
        · intro hx
          exact Or.inr ((inv.memWorker w' x).mp hx)
        · rintro (⟨-, hx2⟩ | hx)
          · rw [hcc] at hx2
            cases hx2
            exact absurd rfl hw
          · exact (inv.memWorker w' x).mpr hx

/-- The invariant is preserved by appending undo/redo records to a live
transaction's buffers (neither the manager state nor any start time or
thread context changes). -/
lemma Inv_write {σ : TMState} {live : List TransactionContext}
    (inv : Inv σ live) (s : Nat) (u : UndoRecord) (r : RedoRecordData) :
    Inv σ (live.map (fun t =>
      if t.start_time = s then
        { t with
          undo_buffer := t.undo_buffer ++ [u]
          redo_buffer := { t.redo_buffer with
            records := t.redo_buffer.records ++ [.redo r] } }
      else t)) := by
  set g := fun t : TransactionContext =>
    if t.start_time = s then
      { t with
        undo_buffer := t.undo_buffer ++ [u]
        redo_buffer := { t.redo_buffer with
          records := t.redo_buffer.records ++ [.redo r] } }
    else t with hg
  have hgs : ∀ t : TransactionContext, (g t).start_time = t.start_time := by
    intro t
    by_cases h : t.start_time = s <;> simp [hg, h]
  have hgc : ∀ t : TransactionContext,
      (g t).thread_context = t.thread_context := by
    intro t
    by_cases h : t.start_time = s <;> simp [hg, h]
  refine ⟨?_, ?_, inv.nodupGlobal, inv.nodupWorkers, ?_, ?_⟩
  · intro x hx
    obtain ⟨y, hy, rfl⟩ := List.mem_map.mp hx
    rw [hgs]
    exact inv.bound y hy
  · rw [List.map_map, List.map_congr_left (fun a _ => by
      show (TransactionContext.start_time ∘ g) a = TransactionContext.start_time a
      exact hgs a)]
    exact inv.nodupStarts
  · intro x
    rw [inv.memGlobal x]
    constructor
    · rintro ⟨y, hy, hyx, hyc⟩
      exact ⟨g y, List.mem_map_of_mem g hy, by rw [hgs]; exact hyx,
        by rw [hgc]; exact hyc⟩
    · rintro ⟨z, hz, hzx, hzc⟩
      obtain ⟨y, hy, rfl⟩ := List.mem_map.mp hz
      rw [hgs] at hzx
      rw [hgc] at hzc
      exact ⟨y, hy, hzx, hzc⟩
  · intro w x
    rw [inv.memWorker w x]
    constructor
    · rintro ⟨y, hy, hyx, hyc⟩
      exact ⟨g y, List.mem_map_of_mem g hy, by rw [hgs]; exact hyx,
        by rw [hgc]; exact hyc⟩
    · rintro ⟨z, hz, hzx, hzc⟩
      obtain ⟨y, hy, rfl⟩ := List.mem_map.mp hz
      rw [hgs] at hzx
      rw [hgc] at hzc
      exact ⟨y, hy, hzx, hzc⟩

/-- The invariant holds initially and is preserved by every step. -/
lemma Inv_step {e : Exec} (inv : Inv e.σ e.live) (op : Op) :
    Inv (step e op).σ (step e op).live := by
  cases op with
  | beginTxn w => exact Inv_begin inv w
  | commitTxn s =>
    dsimp only [step]
    cases hf : e.live.find? (fun t => t.start_time = s) with
    | none => exact inv
    | some t =>
      have hp := List.find?_some hf
      have hts : t.start_time = s := of_decide_eq_true hp
      have htmem := List.mem_of_find?_eq_some hf
      subst hts
      dsimp only
      rw [Commit_state]
      exact Inv_remove inv htmem (Commit_ctx_start_time ..)
        (Commit_ctx_thread_context ..) (Nat.le_succ _) rfl rfl
  | abortTxn s =>
    dsimp only [step]
    cases hf : e.live.find? (fun t => t.start_time = s) with
    | none => exact inv
    | some t =>
      have hp := List.find?_some hf
      have hts : t.start_time = s := of_decide_eq_true hp
      have htmem := List.mem_of_find?_eq_some hf
      subst hts
      dsimp only
      cases ha : Abort e.heap e.σ e.storage t with
      | error err => exact inv
      | ok r =>
        dsimp only
        obtain ⟨hs, hc, -, -, hbk⟩ := Abort_ok_destruct ha
        rw [hbk]
        exact Inv_remove inv htmem hs hc (le_refl _) rfl rfl
  | writeTxn s u r => exact Inv_write inv s u r

/-- The invariant holds in the initial state. -/
lemma Inv_init (workers : List Nat) (gcE logE : Bool) (storage : Storage)
    (heap : Nat → UndoRecord) :
    Inv (initExec workers gcE logE storage heap).σ
      (initExec workers gcE logE storage heap).live := by
  refine ⟨?_, ?_, ?_, ?_, ?_, ?_⟩ <;> simp [initExec]

/-- The invariant holds after any trace. -/
lemma Inv_run (ops : List Op) (e : Exec) (inv : Inv e.σ e.live) :
    Inv (run ops e).σ (run ops e).live := by
  induction ops generalizing e with
  | nil => exact inv
  | cons op l ih => exact ih _ (Inv_step inv op)

/-! ## C4 -/

/-- C4: for every transaction begun by `BeginTransaction` during any trace of
begin/commit/abort/write operations and not yet terminated, the start
timestamp is strictly less than the commit timestamp `Commit` would return
for it — on the read-only critical section, on the updating critical section,
and on `Commit` itself — because all timestamps are drawn from the single
strictly increasing counter and the start was drawn before the commit. -/
theorem start_time_lt_commit_time (ops : List Op) (workers : List Nat)
    (gcE logE : Bool) (storage : Storage) (heap : Nat → UndoRecord)
    (t : TransactionContext)
    (ht : t ∈ (run ops (initExec workers gcE logE storage heap)).live) :
    t.start_time <
      (ReadOnlyCommitCriticalSection
        (run ops (initExec workers gcE logE storage heap)).σ t).1 ∧
    t.start_time <
      (UpdatingCommitCriticalSection
        (run ops (initExec workers gcE logE storage heap)).σ t).1 ∧
    t.start_time <
      (Commit (run ops (initExec workers gcE logE storage heap)).σ t).1 := by
  have inv := Inv_run ops _ (Inv_init workers gcE logE storage heap)
  have hb := inv.bound t ht
  exact ⟨hb, hb, by rw [Commit_fst]; exact hb⟩

/-- C4 witness: in the one-step trace that begins a transaction, its start
time 0 is below the commit timestamp `Commit` returns. -/
theorem start_time_lt_commit_time_witness :
    (BeginTransaction sampleState none).1 ∈
      (run [Op.beginTxn none]
        (initExec [] true true sampleStorage sampleHeap)).live ∧
    (BeginTransaction sampleState none).1.start_time <
      (Commit (run [Op.beginTxn none]
        (initExec [] true true sampleStorage sampleHeap)).σ
        (BeginTransaction sampleState none).1).1 :=
  ⟨by decide,
   (start_time_lt_commit_time [Op.beginTxn none] [] true true sampleStorage
     sampleHeap (BeginTransaction sampleState none).1 (by decide)).2.2⟩

/-! ## C5 -/

/-- C5: after any sequence of operations, every live transaction's start time
is present in exactly one running set — the global set when it was begun with
no thread context, otherwise exactly its own thread context's set — and
`Commit` and `Abort` each remove the start time from that same set. -/
theorem live_txn_exactly_one_set (ops : List Op) (workers : List Nat)
    (gcE logE : Bool) (storage : Storage) (heap : Nat → UndoRecord)
    (t : TransactionContext)
    (ht : t ∈ (run ops (initExec workers gcE logE storage heap)).live) :
    let e := run ops (initExec workers gcE logE storage heap)
    (t.thread_context = none →
      t.start_time ∈ e.σ.curr_running_txns ∧
      (∀ w, t.start_time ∉ e.σ.workerSets w) ∧
      t.start_time ∉ (Commit e.σ t).2.2.curr_running_txns ∧
      (∀ r, Abort e.heap e.σ e.storage t = .ok r →
        t.start_time ∉ r.1.curr_running_txns)) ∧
    (∀ w, t.thread_context = some w →
      t.start_time ∈ e.σ.workerSets w ∧
      t.start_time ∉ e.σ.curr_running_txns ∧
      (∀ w', w' ≠ w → t.start_time ∉ e.σ.workerSets w') ∧
      t.start_time ∉ (Commit e.σ t).2.2.workerSets w ∧
      (∀ r, Abort e.heap e.σ e.storage t = .ok r →
        t.start_time ∉ r.1.workerSets w)) := by
  intro e
  have inv := Inv_run ops _ (Inv_init workers gcE logE storage heap)
  constructor
  · intro hctx
    refine ⟨?_, ?_, ?_, ?_⟩
    · exact (inv.memGlobal t.start_time).mpr ⟨t, ht, rfl, hctx⟩
    · intro w hmem
      obtain ⟨y, hy, hyx, hyc⟩ := (inv.memWorker w t.start_time).mp hmem
      have hyt : y = t := List.inj_on_of_nodup_map inv.nodupStarts hy ht hyx
      rw [hyt, hctx] at hyc
      cases hyc
    · rw [Commit_state, commitBookkeeping_running_none _ _
        ((Commit_ctx_thread_context e.σ t).trans hctx), Commit_ctx_start_time]
      exact inv.nodupGlobal.not_mem_erase
    · intro r hr
      obtain ⟨hs, hc, -, -, hbk⟩ := Abort_ok_destruct hr
      rw [hbk, commitBookkeeping_running_none _ _ (hc.trans hctx), hs]
      exact inv.nodupGlobal.not_mem_erase
  · intro w hctx
    refine ⟨?_, ?_, ?_, ?_, ?_⟩
    · exact (inv.memWorker w t.start_time).mpr ⟨t, ht, rfl, hctx⟩
    · intro hmem
      obtain ⟨y, hy, hyx, hyc⟩ := (inv.memGlobal t.start_time).mp hmem
      have hyt : y = t := List.inj_on_of_nodup_map inv.nodupStarts hy ht hyx
      rw [hyt, hctx] at hyc
      cases hyc
    · intro w' hne hmem
      obtain ⟨y, hy, hyx, hyc⟩ := (inv.memWorker w' t.start_time).mp hmem
      have hyt : y = t := List.inj_on_of_nodup_map inv.nodupStarts hy ht hyx
      rw [hyt, hctx] at hyc
      cases hyc
      exact hne rfl
    · rw [Commit_state, commitBookkeeping_workers_some _ _ w
        ((Commit_ctx_thread_context e.σ t).trans hctx), updateWorkerSet_same,
        Commit_ctx_start_time]
      exact (inv.nodupWorkers w).not_mem_erase
    · intro r hr
      obtain ⟨hs, hc, -, -, hbk⟩ := Abort_ok_destruct hr
      rw [hbk, commitBookkeeping_workers_some _ _ w (hc.trans hctx),
        updateWorkerSet_same, hs]
      exact (inv.nodupWorkers w).not_mem_erase

/-- C5 witness: the transaction begun with no thread context in the one-step
trace has its start time in the global running set, and `Commit` removes
it. -/
theorem live_txn_exactly_one_set_witness :
    (BeginTransaction sampleState none).1.thread_context = none ∧
    (BeginTransaction sampleState none).1.start_time ∈
      (run [Op.beginTxn none]
        (initExec [] true true sampleStorage sampleHeap)).σ.curr_running_txns ∧
    (BeginTransaction sampleState none).1.start_time ∉
      (Commit (run [Op.beginTxn none]
          (initExec [] true true sampleStorage sampleHeap)).σ
        (BeginTransaction sampleState none).1).2.2.curr_running_txns := by
  have h := (live_txn_exactly_one_set [Op.beginTxn none] [] true true
    sampleStorage sampleHeap (BeginTransaction sampleState none).1
    (by decide)).1 rfl
  exact ⟨rfl, h.1, h.2.2.1⟩

end Terrier
